import Mathlib

set_option maxHeartbeats 1000000

/-!
Shallow embedding of the AI-Domain-Lexicon-Generator pipeline
(`main.py`, `main_v1.py`).  Strings are modelled as `List Char` where the
character-level regex steps matter and as `String` for whole phrases;
scores (Python floats) are modelled as `ℚ`.
-/

/-- Python regex `\s` over the ASCII range, as used by the whitespace steps
of `clean_text`: blank, tab, newline, carriage return, vertical tab, form
feed. -/
def isSpace (c : Char) : Bool :=
  c = ' ' || c = '\t' || c = '\n' || c = '\r' || c = '\x0b' || c = '\x0c'

/-- Case-insensitive match of the lowercase pattern `pre` against the start
of a line; returns the remainder on success.  This embeds the IGNORECASE
literal parts (`Page`, `Chapter`) of the header regex in `clean_text`. -/
def afterCI : List Char → List Char → Option (List Char)
  | [], rest => some rest
  | _ :: _, [] => none
  | p :: ps, c :: rest => if c.toLower = p then afterCI ps rest else none

/-- A line deleted by the first regex of `clean_text`,
`^(Page\s\d+|Chapter\s\d+.*?)\n` with MULTILINE and IGNORECASE: the line is
exactly `Page⟨ws⟩⟨digits⟩`, or begins `Chapter⟨ws⟩⟨digit⟩` (the non-greedy
`.*?` then absorbs the rest of the line up to the newline). -/
def isHeaderLine (l : List Char) : Bool :=
  (match afterCI ("page".data) l with
   | some (w :: rest) => isSpace w && !rest.isEmpty && rest.all Char.isDigit
   | _ => false) ||
  (match afterCI ("chapter".data) l with
   | some (w :: rest) =>
     isSpace w && (match rest with | d :: _ => d.isDigit | [] => false)
   | _ => false)

/-- Scanner for the header-line deletion: since every match of the header
regex starts at a line start and ends with its newline, the substitution
deletes exactly the newline-terminated lines matching `isHeaderLine`; the
final unterminated segment never matches (no trailing `\n`) and is kept.
`line` accumulates the characters of the current line. -/
def rhAux : List Char → List Char → List Char
  | line, [] => line
  | line, c :: rest =>
    if c = '\n' then
      (if isHeaderLine line then [] else line ++ ['\n']) ++ rhAux [] rest
    else
      rhAux (line ++ [c]) rest

/-- First step of `clean_text`: `re.sub(r'^(Page\s\d+|Chapter\s\d+.*?)\n', '', text)`. -/
def removeHeaders (s : List Char) : List Char := rhAux [] s

/-- Scanner for `re.sub(r'\[\d+\]', '', text)` (left-to-right,
non-overlapping): `pend` holds a pending `[` plus the digits read so far,
and is empty when the scan is not inside a candidate marker.  A `]` arriving
while at least one digit is pending deletes the whole marker; any other
mismatch flushes the pending characters literally. -/
def rcAux : List Char → List Char → List Char
  | pend, [] => pend
  | pend, c :: rest =>
    match pend with
    | [] => if c = '[' then rcAux ['['] rest else c :: rcAux [] rest
    | _ =>
      if c.isDigit then rcAux (pend ++ [c]) rest
      else if c = ']' ∧ 2 ≤ pend.length then rcAux [] rest
      else if c = '[' then pend ++ rcAux ['['] rest
      else (pend ++ [c]) ++ rcAux [] rest

/-- Second step of `clean_text`: delete every bracketed numeric citation
marker `\[\d+\]`. -/
def removeCitations (s : List Char) : List Char := rcAux [] s

/-- Third step of `clean_text`: `re.sub(r'\s+', ' ', text)` — every maximal
run of whitespace becomes one blank. -/
def collapse : List Char → List Char
  | [] => []
  | [c] => if isSpace c then [' '] else [c]
  | a :: b :: t =>
    if isSpace a && isSpace b then collapse (b :: t)
    else (if isSpace a then ' ' else a) :: collapse (b :: t)

/-- Python `str.strip()`: drop leading and trailing whitespace. -/
def strip (s : List Char) : List Char :=
  ((s.dropWhile isSpace).reverse.dropWhile isSpace).reverse

/-- `clean_text` from `main.py`: header-line removal, citation-marker
removal, whitespace collapsing, and strip. -/
def clean_text (s : List Char) : List Char :=
  strip (collapse (removeCitations (removeHeaders s)))

/-- `split_text_into_chunks` from `main.py`: `text[i:i+chunk_size]` for
`i = 0, chunk_size, 2*chunk_size, ...` — embedded recursively.  The
`n = 0` guard only totalises the definition (Python's `range` raises on a
zero step); all statements below assume a positive chunk size. -/
def split_text_into_chunks (text : List Char) (n : Nat) : List (List Char) :=
  if h : text = [] ∨ n = 0 then []
  else text.take n :: split_text_into_chunks (text.drop n) n
termination_by text.length
decreasing_by
  simp only [List.length_drop]
  rcases Nat.eq_zero_or_pos text.length with h0 | h0
  · exact absurd (List.eq_nil_of_length_eq_zero h0) (by tauto)
  · have hn : n ≠ 0 := by tauto
    omega

/-- Filler words of the aggregator's phrase filter in `main.py`. -/
def fillerWords : List String := ["of", "the", "and", "is", "for", "in"]

/-- The filter condition of the dedup loop in `main.py`:
`any(f" {bad_word} " in f" {term} " for bad_word in [...])` — the phrase,
padded with one leading and one trailing blank, contains some filler word
padded the same way. -/
def hasFiller (t : String) : Bool :=
  fillerWords.any fun b =>
    decide ((' ' :: (b.data ++ [' '])) <:+: (' ' :: (t.data ++ [' '])))

/-- Python-dict update `if term not in d or score > d[term]: d[term] = score`
on an insertion-ordered association list: an existing key keeps its position
and is overwritten only by a strictly greater score; a new key is appended
at the end. -/
def updateMax : List (String × ℚ) → String → ℚ → List (String × ℚ)
  | [], t, s => [(t, s)]
  | (u, v) :: d, t, s =>
    if u = t then (if v < s then (u, s) :: d else (u, v) :: d)
    else (u, v) :: updateMax d t s

/-- One iteration of the dedup loop in `main.py`: skip the pair when the
phrase contains a filler word, otherwise keep the best score per phrase. -/
def dedupStep (d : List (String × ℚ)) (p : String × ℚ) : List (String × ℚ) :=
  if hasFiller p.1 then d else updateMax d p.1 p.2

/-- The `unique_keywords_dict` loop of `main.py` over all accumulated
(phrase, score) pairs, starting from the empty dict. -/
def dedupKeywords (kws : List (String × ℚ)) : List (String × ℚ) :=
  kws.foldl dedupStep []

/-- Association-list lookup mirroring Python dict indexing on the embedded
insertion-ordered dict. -/
def lookupK : List (String × ℚ) → String → Option ℚ
  | [], _ => none
  | (u, v) :: d, t => if u = t then some v else lookupK d t

/-- Scores of all occurrences of phrase `t` in a pair list. -/
def scoresOf (t : String) (kws : List (String × ℚ)) : List ℚ :=
  (kws.filter fun p => p.1 = t).map Prod.snd

/-- The curated essential-term list of `main.py`. -/
def essential_terms : List String :=
  ["Ohm's Law", "Kirchhoff's laws", "Thevenin's theorem", "Norton's theorem",
   "circuit breaker", "voltage regulator"]

/-- The fixed confidence score 0.95 given to injected essential terms. -/
def essentialScore : ℚ := mkRat 95 100

/-- Python `str.lower()` as used by the injection loop, embedded as a
character-wise lowercase map. -/
def strToLower (s : String) : String := String.mk (s.data.map Char.toLower)

/-- The essential terms of `ess` actually appended by the injection loop of
`main.py`: `existing_terms_lower` is computed once from the incoming list
and membership is tested against it, so exactly the terms of `ess` whose
lowercase form is absent from the incoming phrases are appended, in order. -/
def injectedOnly (d : List (String × ℚ)) (ess : List String) : List (String × ℚ) :=
  (ess.filter fun t => !((d.map fun p => strToLower p.1).contains (strToLower t))).map
    fun t => (t, essentialScore)

/-- The essential-term injection loop of `main.py`: append `(term, 0.95)`
for each curated term whose lowercase form is not among the lowercased
existing phrases. -/
def injectEssentials (d : List (String × ℚ)) (ess : List String) : List (String × ℚ) :=
  d ++ injectedOnly d ess

/-- Stable descending insertion by score, embedding
`sort(key=lambda x: x[1], reverse=True)`: an element moves before the first
element of strictly smaller score, so equal scores keep their original
relative order (Python's sort is stable). -/
def insertDesc (p : String × ℚ) : List (String × ℚ) → List (String × ℚ)
  | [] => [p]
  | q :: t => if q.2 < p.2 then p :: q :: t else q :: insertDesc p t

/-- Stable sort by score descending: elements are inserted in arrival
order, each after every already-placed element of equal or larger score, so
ties keep their original relative order exactly as Python's stable sort
does. -/
def sortDesc (l : List (String × ℚ)) : List (String × ℚ) :=
  l.foldl (fun acc p => insertDesc p acc) []

/-- `sorted_keywords` of `main.py`: the deduplicated dict items sorted by
score descending. -/
def sorted_keywords (kws : List (String × ℚ)) : List (String × ℚ) :=
  sortDesc (dedupKeywords kws)

/-- `final_terms` of `main.py` after injection and the second sort. -/
def final_terms (kws : List (String × ℚ)) : List (String × ℚ) :=
  sortDesc (injectEssentials (sorted_keywords kws) essential_terms)

/-- Python float formatting `{score:.2f}` on the embedded rational score:
round to hundredths, then print the integer part, a dot, and exactly two
digit characters. -/
def fmt2 (q : ℚ) : String :=
  let n : ℤ := round (q * 100)
  let a : ℕ := n.natAbs
  (if n < 0 then "-" else "") ++ toString (a / 100) ++ "." ++
    String.mk [Nat.digitChar (a / 10 % 10), Nat.digitChar (a % 10)]

/-- One output line of `main.py`:
`f"{term} :: 電気核心術語 (置信度:{score:.2f})\n"`. -/
def writeLine (t : String) (q : ℚ) : String :=
  t ++ " :: 電気核心術語 (置信度:" ++ fmt2 q ++ ")\n"

/-- One output line of `main_v1.py`:
`f"{term} :: 抽出された用語 (スコア:{score:.2f})\n"`. -/
def writeLineV1 (t : String) (q : ℚ) : String :=
  t ++ " :: 抽出された用語 (スコア:" ++ fmt2 q ++ ")\n"

/-- The two comment lines and blank line `main.py` writes before the terms. -/
def headerLines : List String :=
  ["# 電気工学 核心用語辞書\n", "# 自動抽出 + 専門家による検証・補完\n", "\n"]

/-- A PDF document as seen through the external parsing collaborator: the
plain text of each page, in order. -/
structure PDFDoc where
  pages : List (List Char)

/-- Per-document extraction of `main.py`: skip the first 5 pages when the
document has more than 10, clean each remaining page, and append it with a
trailing blank. -/
def extractDoc (d : PDFDoc) : List Char :=
  let start := if 10 < d.pages.length then 5 else 0
  (((d.pages.drop start).map fun p => clean_text p ++ [' '])).flatten

/-- `extract_texts_from_pdfs` of `main.py` over a modelled directory:
`none` is a missing directory (the function logs and returns the empty
list immediately); otherwise every file whose lowercased name ends in
`.pdf` is extracted, in listing order.  Per-file parser failures are
external and not modelled. -/
def extract_texts_from_pdfs : Option (List (String × PDFDoc)) → List (List Char)
  | none => []
  | some files =>
    (files.filter fun f => List.isSuffixOf ".pdf".data (strToLower f.1).data).map
      fun f => extractDoc f.2

/-- The `__main__` pipeline of `main.py`, with the external keyword model
abstracted as `extractor` (per-chunk scored phrases; a chunk whose
extraction raised is modelled by an empty result).  Returns `none` when no
text was found — the program prints a message and ends without writing —
and otherwise the full list of lines of the output file. -/
def runPipeline (dir : Option (List (String × PDFDoc)))
    (extractor : List Char → List (String × ℚ)) : Option (List String) :=
  let all_texts := extract_texts_from_pdfs dir
  if all_texts = [] then none
  else
    let combined := List.intercalate [' '] all_texts
    let chs := split_text_into_chunks combined 50000
    let all_keywords := (chs.map extractor).flatten
    some (headerLines ++
      ((final_terms all_keywords).take 50).map fun p => writeLine p.1 p.2)

/-! ### Chunker lemmas -/

lemma chunks_spec_aux : ∀ (len : ℕ) (text : List Char) (n : ℕ),
    text.length ≤ len → 0 < n →
    (split_text_into_chunks text n).flatten = text ∧
    (∀ c ∈ split_text_into_chunks text n, c.length ≤ n) ∧
    (split_text_into_chunks text n).length = (text.length + n - 1) / n := by
  intro len
  induction len with
  | zero =>
    intro text n hlen hn
    have htext : text = [] := List.eq_nil_of_length_eq_zero (Nat.le_zero.mp hlen)
    subst htext
    rw [split_text_into_chunks]
    refine ⟨by simp, by simp, ?_⟩
    simp only [dif_pos (Or.inl rfl), List.length_nil]
    exact (Nat.div_eq_of_lt (by omega)).symm
  | succ k ih =>
    intro text n hlen hn
    rw [split_text_into_chunks]
    by_cases he : text = [] ∨ n = 0
    · have htext : text = [] := by
        rcases he with h1 | h1
        · exact h1
        · omega
      subst htext
      refine ⟨by simp [he], by simp [he], ?_⟩
      simp only [dif_pos he, List.length_nil]
      exact (Nat.div_eq_of_lt (by omega)).symm
    · simp only [dif_neg he]
      have htne : text ≠ [] := fun h => he (Or.inl h)
      have hpos : 0 < text.length := List.length_pos.mpr htne
      have hdrop : (text.drop n).length ≤ k := by
        simp only [List.length_drop]; omega
      obtain ⟨ihj, ihle, ihcount⟩ := ih (text.drop n) n hdrop hn
      refine ⟨?_, ?_, ?_⟩
      · simp [ihj]
      · intro c hc
        rcases List.mem_cons.mp hc with h1 | h1
        · subst h1
          simp only [List.length_take]
          omega
        · exact ihle c h1
      · simp only [List.length_cons, ihcount, List.length_drop]
        by_cases hle : text.length ≤ n
        · have h0 : text.length - n = 0 := by omega
          rw [h0]
          have h1 : (0 + n - 1) / n = 0 := Nat.div_eq_of_lt (by omega)
          rw [h1]
          exact (Nat.div_eq_of_lt_le (by omega) (by omega)).symm
        · have h2 : text.length + n - 1 = (text.length - n + n - 1) + n := by omega
          rw [h2, Nat.add_div_right _ hn]

/-- C2: for every input string and positive chunk size, the chunks of
`split_text_into_chunks` concatenate back to the original string, each chunk
has length at most the chunk size, and the number of chunks is
`⌈length / chunk size⌉` (written `(length + n - 1) / n`), in particular zero
chunks for the empty string. -/
theorem C2_chunker (text : List Char) (n : ℕ) (hn : 0 < n) :
    (split_text_into_chunks text n).flatten = text ∧
    (∀ c ∈ split_text_into_chunks text n, c.length ≤ n) ∧
    (split_text_into_chunks text n).length = (text.length + n - 1) / n :=
  chunks_spec_aux text.length text n le_rfl hn

/-- C2 witness: the chunker theorem applied to the concrete string
`"abcde"` with chunk size 2. -/
theorem C2_chunker_witness :
    0 < 2 ∧
    ((split_text_into_chunks "abcde".data 2).flatten = "abcde".data ∧
     (∀ c ∈ split_text_into_chunks "abcde".data 2, c.length ≤ 2) ∧
     (split_text_into_chunks "abcde".data 2).length = ("abcde".data.length + 2 - 1) / 2) :=
  ⟨by decide, C2_chunker "abcde".data 2 (by decide)⟩

/-- C9: a missing input directory makes `extract_texts_from_pdfs` return the
empty list immediately, and the pipeline then stops without producing an
output file, whatever the external keyword extractor would have returned. -/
theorem C9_missing_dir (extractor : List Char → List (String × ℚ)) :
    extract_texts_from_pdfs none = [] ∧ runPipeline none extractor = none :=
  ⟨rfl, rfl⟩

/-! ### Aggregator lemmas -/

/-- Score kept by the dict update: the old one unless the new is strictly
greater. -/
def bestOf (o : Option ℚ) (s : ℚ) : ℚ :=
  match o with
  | none => s
  | some v => if v < s then s else v

/-- Folding the dict update over a list of scores. -/
def mergeMax (o : Option ℚ) (ss : List ℚ) : Option ℚ :=
  ss.foldl (fun acc s => some (bestOf acc s)) o

lemma mergeMax_cons (o : Option ℚ) (s : ℚ) (ss : List ℚ) :
    mergeMax o (s :: ss) = mergeMax (some (bestOf o s)) ss := rfl

lemma lookupK_updateMax_self (d : List (String × ℚ)) (t : String) (s : ℚ) :
    lookupK (updateMax d t s) t = some (bestOf (lookupK d t) s) := by
  induction d with
  | nil => simp [updateMax, lookupK, bestOf]
  | cons p tl ih =>
    obtain ⟨u, v⟩ := p
    by_cases hu : u = t
    · subst hu
      by_cases hv : v < s
      · simp [updateMax, lookupK, bestOf, hv]
      · simp [updateMax, lookupK, bestOf, hv]
    · simp [updateMax, lookupK, hu, ih]

lemma lookupK_updateMax_ne (d : List (String × ℚ)) (u t : String) (s : ℚ)
    (h : u ≠ t) : lookupK (updateMax d u s) t = lookupK d t := by
  induction d with
  | nil => simp [updateMax, lookupK, h]
  | cons p tl ih =>
    obtain ⟨w, v⟩ := p
    by_cases hw : w = u
    · subst hw
      by_cases hv : v < s
      · simp [updateMax, lookupK, hv, h]
      · simp [updateMax, lookupK, hv]
    · by_cases hwt : w = t
      · subst hwt
        simp [updateMax, lookupK, hw]
      · simp [updateMax, lookupK, hw, hwt, ih]

lemma keys_updateMax_mem (d : List (String × ℚ)) (t : String) (s : ℚ)
    (h : t ∈ d.map Prod.fst) :
    (updateMax d t s).map Prod.fst = d.map Prod.fst := by
  induction d with
  | nil => simp at h
  | cons p tl ih =>
    obtain ⟨u, v⟩ := p
    by_cases hu : u = t
    · subst hu
      by_cases hv : v < s
      · simp [updateMax, hv]
      · simp [updateMax, hv]
    · have h' : t ∈ tl.map Prod.fst := by
        simp only [List.map_cons, List.mem_cons] at h
        rcases h with h | h
        · exact absurd h.symm hu
        · exact h
      simp [updateMax, hu, ih h']

lemma keys_updateMax_new (d : List (String × ℚ)) (t : String) (s : ℚ)
    (h : t ∉ d.map Prod.fst) :
    (updateMax d t s).map Prod.fst = d.map Prod.fst ++ [t] := by
  induction d with
  | nil => simp [updateMax]
  | cons p tl ih =>
    obtain ⟨u, v⟩ := p
    simp only [List.map_cons, List.mem_cons] at h
    push_neg at h
    have hu : u ≠ t := fun he => h.1 he.symm
    simp [updateMax, hu, ih h.2]

lemma lookupK_eq_none_iff (d : List (String × ℚ)) (t : String) :
    lookupK d t = none ↔ t ∉ d.map Prod.fst := by
  induction d with
  | nil => simp [lookupK]
  | cons p tl ih =>
    obtain ⟨u, v⟩ := p
    by_cases hu : u = t
    · subst hu
      simp [lookupK]
    · have hut : ¬ t = u := fun he => hu he.symm
      simp [lookupK, hu, ih, hut]

lemma scoresOf_cons (t u : String) (s : ℚ) (kws : List (String × ℚ)) :
    scoresOf t ((u, s) :: kws) =
      if u = t then s :: scoresOf t kws else scoresOf t kws := by
  by_cases hu : u = t <;> simp [scoresOf, List.filter_cons, hu]

lemma mem_scoresOf (t : String) (s : ℚ) (kws : List (String × ℚ))
    (h : (t, s) ∈ kws) : s ∈ scoresOf t kws := by
  simp only [scoresOf, List.mem_map, List.mem_filter]
  exact ⟨(t, s), ⟨h, by simp⟩, rfl⟩

lemma mergeMax_some_spec (ss : List ℚ) : ∀ (w : ℚ),
    ∃ v, mergeMax (some w) ss = some v ∧ (v = w ∨ v ∈ ss) ∧ w ≤ v ∧
      ∀ x ∈ ss, x ≤ v := by
  induction ss with
  | nil => exact fun w => ⟨w, rfl, Or.inl rfl, le_rfl, by simp⟩
  | cons s ss ih =>
    intro w
    obtain ⟨v, h1, h2, h3, h4⟩ := ih (bestOf (some w) s)
    have hb : bestOf (some w) s = w ∨ bestOf (some w) s = s := by
      by_cases hv : w < s <;> simp [bestOf, hv]
    have hws : w ≤ bestOf (some w) s ∧ s ≤ bestOf (some w) s := by
      by_cases hv : w < s <;> simp [bestOf, hv] <;> [exact le_of_lt hv; exact le_of_not_lt hv]
    refine ⟨v, by simpa [mergeMax_cons] using h1, ?_, le_trans hws.1 h3, ?_⟩
    · rcases h2 with h2 | h2
      · rcases hb with hb | hb
        · exact Or.inl (h2.trans hb)
        · exact Or.inr (by simp [h2.trans hb])
      · exact Or.inr (by simp [h2])
    · intro x hx
      rcases List.mem_cons.mp hx with hx | hx
      · exact hx ▸ le_trans hws.2 h3
      · exact h4 x hx

lemma dedup_foldl_lookup (pairs : List (String × ℚ)) : ∀ (d : List (String × ℚ))
    (t : String), hasFiller t = false →
    lookupK (pairs.foldl dedupStep d) t = mergeMax (lookupK d t) (scoresOf t pairs) := by
  induction pairs with
  | nil => intro d t _; simp [mergeMax, scoresOf]
  | cons p rest ih =>
    intro d t ht
    obtain ⟨u, s⟩ := p
    simp only [List.foldl_cons]
    rw [ih _ t ht, scoresOf_cons]
    by_cases hu : u = t
    · subst hu
      rw [if_pos rfl, mergeMax_cons,
        show dedupStep d (u, s) = updateMax d u s from by simp [dedupStep, ht],
        lookupK_updateMax_self]
    · rw [if_neg hu]
      cases hf : hasFiller u with
      | false =>
        rw [show dedupStep d (u, s) = updateMax d u s from by simp [dedupStep, hf],
          lookupK_updateMax_ne d u t s hu]
      | true =>
        rw [show dedupStep d (u, s) = d from by simp [dedupStep, hf]]

lemma dedup_foldl_filler (pairs : List (String × ℚ)) : ∀ (d : List (String × ℚ))
    (t : String), hasFiller t = true →
    lookupK (pairs.foldl dedupStep d) t = lookupK d t := by
  induction pairs with
  | nil => intro d t _; rfl
  | cons p rest ih =>
    intro d t ht
    obtain ⟨u, s⟩ := p
    simp only [List.foldl_cons]
    rw [ih _ t ht]
    cases hf : hasFiller u with
    | true => rw [show dedupStep d (u, s) = d from by simp [dedupStep, hf]]
    | false =>
      have hu : u ≠ t := by
        intro he
        rw [he, ht] at hf
        exact Bool.noConfusion hf
      rw [show dedupStep d (u, s) = updateMax d u s from by simp [dedupStep, hf],
        lookupK_updateMax_ne d u t s hu]

lemma dedup_foldl_nodup (pairs : List (String × ℚ)) : ∀ (d : List (String × ℚ)),
    (d.map Prod.fst).Nodup → ((pairs.foldl dedupStep d).map Prod.fst).Nodup := by
  induction pairs with
  | nil => exact fun d h => h
  | cons p rest ih =>
    intro d hd
    obtain ⟨u, s⟩ := p
    simp only [List.foldl_cons]
    refine ih _ ?_
    cases hf : hasFiller u with
    | true => simpa [dedupStep, hf] using hd
    | false =>
      rw [show dedupStep d (u, s) = updateMax d u s from by simp [dedupStep, hf]]
      by_cases hm : u ∈ d.map Prod.fst
      · rw [keys_updateMax_mem d u s hm]; exact hd
      · rw [keys_updateMax_new d u s hm]
        simp [List.nodup_append, hd, hm]

lemma dedup_lookup_some (kws : List (String × ℚ)) (t : String) (s : ℚ)
    (hmem : (t, s) ∈ kws) (hf : hasFiller t = false) :
    ∃ v, lookupK (dedupKeywords kws) t = some v ∧ v ∈ scoresOf t kws ∧
      ∀ x ∈ scoresOf t kws, x ≤ v := by
  have h := dedup_foldl_lookup kws [] t hf
  rw [show lookupK [] t = none from rfl] at h
  have hs : s ∈ scoresOf t kws := mem_scoresOf t s kws hmem
  cases hsc : scoresOf t kws with
  | nil => rw [hsc] at hs; simp at hs
  | cons s0 rest =>
    rw [hsc, mergeMax_cons, show bestOf none s0 = s0 from rfl] at h
    obtain ⟨v, h1, h2, h3, h4⟩ := mergeMax_some_spec rest s0
    refine ⟨v, by rw [dedupKeywords, h, h1], ?_, ?_⟩
    · rcases h2 with h2 | h2
      · simp [h2]
      · simp [h2]
    · intro x hx
      rcases List.mem_cons.mp hx with hx | hx
      · exact hx ▸ h3
      · exact h4 x hx

lemma updateMax_no_replace (d : List (String × ℚ)) (t : String) (v s : ℚ)
    (hl : lookupK d t = some v) (hns : ¬ v < s) : updateMax d t s = d := by
  induction d with
  | nil => simp [lookupK] at hl
  | cons p tl ih =>
    obtain ⟨u, w⟩ := p
    by_cases hu : u = t
    · subst hu
      simp only [lookupK, if_true, eq_self_iff_true, Option.some.injEq] at hl
      subst hl
      simp [updateMax, hns]
    · simp only [lookupK, if_neg hu] at hl
      simp [updateMax, hu, ih hl]

/-! ### Sorting and injection lemmas -/

lemma insertDesc_perm (l : List (String × ℚ)) (p : String × ℚ) :
    List.Perm (insertDesc p l) (p :: l) := by
  induction l with
  | nil => rfl
  | cons q t ih =>
    by_cases hq : q.2 < p.2
    · simp [insertDesc, hq]
    · simp only [insertDesc, if_neg hq]
      exact (ih.cons q).trans (List.Perm.swap p q t)

lemma sortDesc_foldl_perm (l : List (String × ℚ)) : ∀ (acc : List (String × ℚ)),
    List.Perm (l.foldl (fun acc p => insertDesc p acc) acc) (acc ++ l) := by
  induction l with
  | nil => simp
  | cons p t ih =>
    intro acc
    simp only [List.foldl_cons]
    refine (ih (insertDesc p acc)).trans ?_
    refine (List.Perm.append_right t (insertDesc_perm acc p)).trans ?_
    exact (List.perm_middle).symm

lemma sortDesc_perm (l : List (String × ℚ)) : List.Perm (sortDesc l) l := by
  simpa using sortDesc_foldl_perm l []

lemma insertDesc_head (p : String × ℚ) (l : List (String × ℚ)) :
    (insertDesc p l).head? = some p ∨ (insertDesc p l).head? = l.head? := by
  cases l with
  | nil => left; rfl
  | cons q t =>
    by_cases hq : q.2 < p.2
    · left; simp [insertDesc, hq]
    · right; simp [insertDesc, hq]

lemma chain'_insertDesc (l : List (String × ℚ)) (p : String × ℚ)
    (h : l.Chain' fun a b => b.2 ≤ a.2) :
    (insertDesc p l).Chain' fun a b => b.2 ≤ a.2 := by
  induction l with
  | nil => simp [insertDesc]
  | cons q t ih =>
    by_cases hq : q.2 < p.2
    · simp only [insertDesc, if_pos hq]
      exact List.Chain'.cons (le_of_lt hq) h
    · simp only [insertDesc, if_neg hq]
      have ht : t.Chain' fun a b => b.2 ≤ a.2 := h.tail
      refine List.chain'_cons'.mpr ⟨?_, ih ht⟩
      intro y hy
      rcases insertDesc_head p t with hh | hh
      · rw [hh] at hy
        simp only [Option.mem_def, Option.some.injEq] at hy
        subst hy
        exact le_of_not_lt hq
      · rw [hh] at hy
        rcases List.chain'_cons'.mp h with ⟨h1, _⟩
        exact h1 y hy

lemma chain'_sortDesc (l : List (String × ℚ)) :
    (sortDesc l).Chain' fun a b => b.2 ≤ a.2 := by
  suffices h : ∀ acc : List (String × ℚ), (acc.Chain' fun a b => b.2 ≤ a.2) →
      ((l.foldl (fun acc p => insertDesc p acc) acc).Chain' fun a b => b.2 ≤ a.2) by
    exact h [] (by simp)
  induction l with
  | nil => exact fun acc h => h
  | cons p t ih =>
    intro acc hacc
    simp only [List.foldl_cons]
    exact ih _ (chain'_insertDesc acc p hacc)

lemma mem_injectEssentials_of_absent (d : List (String × ℚ)) (ess : List String)
    (t : String) (ht : t ∈ ess) (habs : ∀ p ∈ d, strToLower p.1 ≠ strToLower t) :
    (t, essentialScore) ∈ injectEssentials d ess := by
  have hmem : strToLower t ∉ d.map fun p => strToLower p.1 := by
    simp only [List.mem_map, not_exists, not_and]
    rintro p hp he
    exact habs p hp he
  refine List.mem_append_right _ ?_
  simp only [injectedOnly, List.mem_map]
  refine ⟨t, ?_, rfl⟩
  rw [List.mem_filter]
  exact ⟨ht, by simp [List.elem_iff, hmem]⟩

lemma not_mem_injectedOnly_of_match (d : List (String × ℚ)) (ess : List String)
    (t : String) (hmatch : ∃ p ∈ d, strToLower p.1 = strToLower t) (s : ℚ) :
    (t, s) ∉ injectedOnly d ess := by
  obtain ⟨p, hp, hpl⟩ := hmatch
  have hmem : strToLower t ∈ d.map fun p => strToLower p.1 :=
    List.mem_map.mpr ⟨p, hp, hpl⟩
  simp only [injectedOnly, List.mem_map]
  rintro ⟨u, hu, he⟩
  obtain rfl : u = t := congrArg Prod.fst he
  rw [List.mem_filter] at hu
  have := hu.2
  simp [List.elem_iff, hmem] at this

lemma dedup_lookup_some_inv (kws : List (String × ℚ)) (t : String) (v : ℚ)
    (hl : lookupK (dedupKeywords kws) t = some v) :
    v ∈ scoresOf t kws ∧ ∀ x ∈ scoresOf t kws, x ≤ v := by
  cases hf : hasFiller t with
  | true =>
    have h := dedup_foldl_filler kws [] t hf
    rw [dedupKeywords] at hl
    rw [h] at hl
    exact absurd hl (by simp [lookupK])
  | false =>
    have h := dedup_foldl_lookup kws [] t hf
    rw [dedupKeywords] at hl
    rw [hl] at h
    cases hsc : scoresOf t kws with
    | nil =>
      rw [hsc] at h
      simp [mergeMax, lookupK] at h
    | cons s0 rest =>
      rw [hsc, show lookupK [] t = none from rfl, mergeMax_cons,
        show bestOf none s0 = s0 from rfl] at h
      obtain ⟨v', h1, h2, h3, h4⟩ := mergeMax_some_spec rest s0
      rw [h1, Option.some.injEq] at h
      subst h
      constructor
      · rcases h2 with h2 | h2
        · simp [h2]
        · simp [h2]
      · intro x hx
        rcases List.mem_cons.mp hx with hx | hx
        · exact hx ▸ h3
        · exact h4 x hx

/-! ### Claim theorems: the Aggregator -/

/-- C1: in the dedup loop over surviving (phrase, score) pairs in arrival
order, the resulting dict has exactly one entry per phrase; for any
occurring surviving phrase the stored value is the maximum of that phrase's
scores; and a pair whose score does not strictly exceed the stored one
leaves the dict unchanged, so the first occurrence wins ties. -/
theorem C1_dedup_max (kws : List (String × ℚ)) (t : String) (s : ℚ)
    (hmem : (t, s) ∈ kws) (hf : hasFiller t = false) :
    ((dedupKeywords kws).map Prod.fst).Nodup ∧
    (∃ v, lookupK (dedupKeywords kws) t = some v ∧ v ∈ scoresOf t kws ∧
      ∀ x ∈ scoresOf t kws, x ≤ v) ∧
    (∀ (d : List (String × ℚ)) (v s' : ℚ), lookupK d t = some v → ¬ v < s' →
      updateMax d t s' = d) :=
  ⟨dedup_foldl_nodup kws [] (by simp), dedup_lookup_some kws t s hmem hf,
   fun d v s' hl hns => updateMax_no_replace d t v s' hl hns⟩

/-- C1 witness: deduplication of `[("a",1), ("a",2), ("b",0)]` keeps the
maximum score 2 for `"a"`. -/
theorem C1_dedup_max_witness :
    ((dedupKeywords [("a", (1:ℚ)), ("a", 2), ("b", 0)]).map Prod.fst).Nodup ∧
    (∃ v, lookupK (dedupKeywords [("a", (1:ℚ)), ("a", 2), ("b", 0)]) "a" = some v ∧
      v ∈ scoresOf "a" [("a", (1:ℚ)), ("a", 2), ("b", 0)] ∧
      ∀ x ∈ scoresOf "a" [("a", (1:ℚ)), ("a", 2), ("b", 0)], x ≤ v) ∧
    (∀ (d : List (String × ℚ)) (v s' : ℚ), lookupK d "a" = some v → ¬ v < s' →
      updateMax d "a" s' = d) :=
  C1_dedup_max [("a", (1:ℚ)), ("a", 2), ("b", 0)] "a" 1 (by decide) (by decide)

/-- C3: a phrase occurring among the candidate pairs is absent from the
deduplicated dictionary, whatever its score, exactly when its blank-padded
form contains a blank-padded filler word. -/
theorem C3_filler_filter (kws : List (String × ℚ)) (t : String) (s : ℚ)
    (hmem : (t, s) ∈ kws) :
    (t ∉ (dedupKeywords kws).map Prod.fst ↔ hasFiller t = true) := by
  constructor
  · intro hnot
    cases h : hasFiller t with
    | true => rfl
    | false =>
      obtain ⟨v, hv, _, _⟩ := dedup_lookup_some kws t s hmem h
      have hnone := (lookupK_eq_none_iff (dedupKeywords kws) t).mpr hnot
      rw [hnone] at hv
      exact Option.noConfusion hv
  · intro hft
    have h := dedup_foldl_filler kws [] t hft
    refine (lookupK_eq_none_iff _ _).mp ?_
    rw [dedupKeywords, h]
    rfl

/-- C3 witness: the phrase `"theory of x"` occurs with score 1 and is
excluded because it contains the filler word `"of"`. -/
theorem C3_filler_filter_witness :
    ("theory of x" ∉ (dedupKeywords [("theory of x", (1:ℚ))]).map Prod.fst ↔
      hasFiller "theory of x" = true) :=
  C3_filler_filter [("theory of x", (1:ℚ))] "theory of x" 1 (by decide)

/-- C6 counterexample: the dict comparison is case-sensitive, so the two
case variants `"Ohm"` and `"ohm"` both survive as separate entries even
though they agree case-insensitively — the claimed case-insensitive
at-most-one-entry invariant fails. -/
theorem C6_counterexample :
    (dedupKeywords [("Ohm", (1:ℚ)), ("ohm", 2)]).map Prod.fst = ["Ohm", "ohm"] ∧
    strToLower "Ohm" = strToLower "ohm" ∧
    ¬ ((dedupKeywords [("Ohm", (1:ℚ)), ("ohm", 2)]).map fun p => strToLower p.1).Nodup := by
  decide

/-- C6 amended: the dictionary built by the dedup loop compares phrases
case-sensitively (exact equality) and stores them case-preservingly: it
holds at most one entry per exact phrase, and every stored value is the
maximum score observed for that exact phrase.  Case-insensitive comparison
is used only by the later essential-term injection. -/
theorem C6_amended (kws : List (String × ℚ)) :
    ((dedupKeywords kws).map Prod.fst).Nodup ∧
    ∀ (t : String) (v : ℚ), lookupK (dedupKeywords kws) t = some v →
      v ∈ scoresOf t kws ∧ ∀ x ∈ scoresOf t kws, x ≤ v :=
  ⟨dedup_foldl_nodup kws [] (by simp),
   fun t v hl => dedup_lookup_some_inv kws t v hl⟩

/-- C6 witness: the amended theorem applied to `[("a",2), ("a",1)]`, whose
dict entry for `"a"` is 2, the maximum of the observed scores. -/
theorem C6_amended_witness :
    (2:ℚ) ∈ scoresOf "a" [("a", (2:ℚ)), ("a", 1)] ∧
    ∀ x ∈ scoresOf "a" [("a", (2:ℚ)), ("a", 1)], x ≤ (2:ℚ) :=
  (C6_amended [("a", (2:ℚ)), ("a", 1)]).2 "a" 2 (by decide)

/-- Fifty distinct extractor candidates, all scoring 1 (above 0.95). -/
def fiftyHighKws : List (String × ℚ) :=
  (List.range 50).map fun i => ("t" ++ toString i, 1)

/-- C4 counterexample: with fifty retained phrases that all outscore 0.95,
the essential term `"circuit breaker"` is absent case-insensitively and is
injected with score 0.95, yet it does not appear among the fifty entries
actually written, because the top-50 truncation cuts it off. -/
theorem C4_counterexample :
    "circuit breaker" ∈ essential_terms ∧
    (∀ p ∈ sorted_keywords fiftyHighKws,
      strToLower p.1 ≠ strToLower "circuit breaker") ∧
    ("circuit breaker", essentialScore) ∈
      injectEssentials (sorted_keywords fiftyHighKws) essential_terms ∧
    "circuit breaker" ∉ ((final_terms fiftyHighKws).take 50).map Prod.fst := by
  decide

/-- C4 amended: an essential term absent case-insensitively from the
deduplicated results is appended with score exactly 0.95 and is a member of
the final term list before truncation (it reaches the written output only
when it falls within the top N); when some phrase already matches it
case-insensitively, no entry for it is appended. -/
theorem C4_amended (kws : List (String × ℚ)) (t : String)
    (ht : t ∈ essential_terms) :
    ((∀ p ∈ sorted_keywords kws, strToLower p.1 ≠ strToLower t) →
       (t, essentialScore) ∈ final_terms kws) ∧
    ((∃ p ∈ sorted_keywords kws, strToLower p.1 = strToLower t) →
       ∀ s, (t, s) ∉ injectedOnly (sorted_keywords kws) essential_terms) := by
  constructor
  · intro habs
    have hmem := mem_injectEssentials_of_absent (sorted_keywords kws)
      essential_terms t ht habs
    exact ((sortDesc_perm _).mem_iff).mpr hmem
  · intro hmatch s
    exact not_mem_injectedOnly_of_match _ _ t hmatch s

/-- C4 witness: with no extracted keywords at all, `"circuit breaker"` is
injected at score 0.95 into the final list. -/
theorem C4_amended_witness :
    ("circuit breaker", essentialScore) ∈ final_terms [] :=
  (C4_amended [] "circuit breaker" (by decide)).1 (by decide)

/-- C5: after injection, the final term list is sorted by score in
descending order, it is a permutation of the retained entries, and the
entries written after top-50 truncation number exactly
`min 50 (number of retained entries)`. -/
theorem C5_sort_truncate (kws : List (String × ℚ)) :
    ((final_terms kws).Chain' fun a b => b.2 ≤ a.2) ∧
    List.Perm (final_terms kws)
      (injectEssentials (sorted_keywords kws) essential_terms) ∧
    (((final_terms kws).take 50).map fun p => writeLine p.1 p.2).length =
      min 50 (injectEssentials (sorted_keywords kws) essential_terms).length := by
  refine ⟨chain'_sortDesc _, sortDesc_perm _, ?_⟩
  rw [List.length_map, List.length_take,
    show (final_terms kws).length =
      (injectEssentials (sorted_keywords kws) essential_terms).length from
      (sortDesc_perm _).length_eq]

/-- C10: the essential-term injection never applies the filler-word filter:
a curated term containing a filler word is still appended with score 0.95
whenever it is absent case-insensitively, while the same phrase arriving as
an extractor candidate would have been excluded from the dictionary. -/
theorem C10_injection_bypasses_filter (results : List (String × ℚ))
    (ess : List String) (t : String) (ht : t ∈ ess)
    (hfil : hasFiller t = true)
    (habs : ∀ p ∈ results, strToLower p.1 ≠ strToLower t) :
    (t, essentialScore) ∈ injectEssentials results ess ∧
    ∀ (s : ℚ) (kws : List (String × ℚ)),
      t ∉ (dedupKeywords ((t, s) :: kws)).map Prod.fst := by
  refine ⟨mem_injectEssentials_of_absent results ess t ht habs, ?_⟩
  intro s kws
  have h := dedup_foldl_filler ((t, s) :: kws) [] t hfil
  refine (lookupK_eq_none_iff _ _).mp ?_
  rw [dedupKeywords, h]
  rfl

/-- C10 witness: the filler-containing phrase `"theory of things"` is
appended by injection although the dedup loop would always exclude it. -/
theorem C10_injection_bypasses_filter_witness :
    ("theory of things", essentialScore) ∈
      injectEssentials [("alpha", (1:ℚ))] ["theory of things"] ∧
    ∀ (s : ℚ) (kws : List (String × ℚ)),
      "theory of things" ∉ (dedupKeywords (("theory of things", s) :: kws)).map Prod.fst :=
  C10_injection_bypasses_filter [("alpha", (1:ℚ))] ["theory of things"]
    "theory of things" (by decide) (by decide) (by decide)

/-! ### Claim theorems: the Writer -/

lemma digitChar_isDigit_of_lt (m : ℕ) (h : m < 10) :
    (Nat.digitChar m).isDigit = true := by
  have : ∀ k < 10, (Nat.digitChar k).isDigit = true := by decide
  exact this m h

lemma fmt2_shape (q : ℚ) :
    ∃ (ip : String) (d1 d2 : Char), fmt2 q = ip ++ "." ++ String.mk [d1, d2] ∧
      d1.isDigit = true ∧ d2.isDigit = true := by
  refine ⟨(if round (q * 100) < 0 then "-" else "") ++
      toString ((round (q * 100)).natAbs / 100),
    Nat.digitChar ((round (q * 100)).natAbs / 10 % 10),
    Nat.digitChar ((round (q * 100)).natAbs % 10), ?_, ?_, ?_⟩
  · rw [fmt2, String.append_assoc]
  · exact digitChar_isDigit_of_lt _ (Nat.mod_lt _ (by norm_num))
  · exact digitChar_isDigit_of_lt _ (Nat.mod_lt _ (by norm_num))

/-- C7 counterexample: no fixed label makes the written line follow the
claimed exact template with the literal text `(confidence:` — the code
writes the localized literal `(置信度:` instead, so the line produced for
the empty phrase is one character too short for the claimed template
whatever the label. -/
theorem C7_counterexample :
    ¬ ∃ label : String, ∀ (t : String) (q : ℚ),
      writeLine t q = t ++ " :: " ++ label ++ " (confidence:" ++ fmt2 q ++ ")\n" := by
  rintro ⟨label, h⟩
  have hlen := congrArg String.length (h "" 0)
  have h16 : (" :: 電気核心術語 (置信度:" : String).length = 16 := by decide
  have h4 : (" :: " : String).length = 4 := by decide
  have h13 : (" (confidence:" : String).length = 13 := by decide
  have h2 : (")\n" : String).length = 2 := by decide
  have h0 : ("" : String).length = 0 := by decide
  rw [writeLine] at hlen
  simp only [String.length_append, h16, h4, h13, h2, h0] at hlen
  omega

/-- C7 amended: every written line follows the exact template
`"{phrase} :: {label} ({cl}:{score:.2f})\n"` where the fixed label and the
confidence word are the localized literals `電気核心術語` and `置信度` in
`main.py` (`抽出された用語` and `スコア` in `main_v1.py`, not the English
word `confidence`), and the formatted score ends in a dot followed by
exactly two digit characters. -/
theorem C7_amended (t : String) (q : ℚ) :
    writeLine t q = t ++ " :: 電気核心術語 (置信度:" ++ fmt2 q ++ ")\n" ∧
    writeLineV1 t q = t ++ " :: 抽出された用語 (スコア:" ++ fmt2 q ++ ")\n" ∧
    ∃ (ip : String) (d1 d2 : Char), fmt2 q = ip ++ "." ++ String.mk [d1, d2] ∧
      d1.isDigit = true ∧ d2.isDigit = true :=
  ⟨rfl, rfl, fmt2_shape q⟩

/-! ### Text Cleaner lemmas -/

lemma rhAux_no_nl (s : List Char) : ∀ line : List Char, '\n' ∉ s →
    rhAux line s = line ++ s := by
  induction s with
  | nil => intro line _; simp [rhAux]
  | cons c rest ih =>
    intro line h
    have hc : ¬ c = '\n' := by
      intro he
      subst he
      exact h (List.mem_cons_self _ _)
    have h2 : '\n' ∉ rest := fun hm => h (List.mem_cons_of_mem c hm)
    simp only [rhAux, if_neg hc]
    rw [ih (line ++ [c]) h2]
    simp

lemma collapse_cons (b : Char) (t : List Char) :
    ∃ u, collapse (b :: t) = (if isSpace b then ' ' else b) :: u := by
  induction t generalizing b with
  | nil =>
    refine ⟨[], ?_⟩
    by_cases h : isSpace b <;> simp [collapse, h]
  | cons c t ih =>
    by_cases hbc : (isSpace b && isSpace c) = true
    · obtain ⟨hb, hcs⟩ := Bool.and_eq_true_iff.mp hbc
      obtain ⟨u, hu⟩ := ih c
      refine ⟨u, ?_⟩
      rw [show collapse (b :: c :: t) = collapse (c :: t) from by
        simp [collapse, hbc]]
      rw [hu, hb, hcs]
      simp
    · exact ⟨collapse (c :: t), by simp [collapse, hbc]⟩

/-- Output characters of the whitespace collapse that are whitespace are
exactly the single blank. -/
def spacesBlank (l : List Char) : Prop := ∀ c ∈ l, isSpace c = true → c = ' '

/-- No two adjacent whitespace characters. -/
def noTwoSpaces (l : List Char) : Prop :=
  l.Chain' fun a b => ¬(isSpace a = true ∧ isSpace b = true)

lemma collapse_spacesBlank (l : List Char) : spacesBlank (collapse l) := by
  induction l using collapse.induct with
  | case1 => intro c hc _; simp [collapse] at hc
  | case2 c h =>
    intro d hd _
    simp [collapse, h] at hd
    simp [hd]
  | case3 c h =>
    intro d hd hs
    simp [collapse, h] at hd
    subst hd
    exact absurd hs h
  | case4 a b t h ih =>
    intro d hd hs
    rw [show collapse (a :: b :: t) = collapse (b :: t) from by
      simp [collapse, h]] at hd
    exact ih d hd hs
  | case5 a b t h ih =>
    intro d hd hs
    rw [show collapse (a :: b :: t) =
        (if isSpace a then ' ' else a) :: collapse (b :: t) from by
      simp [collapse, h]] at hd
    rcases List.mem_cons.mp hd with hd | hd
    · subst hd
      by_cases ha : isSpace a = true
      · simp [ha]
      · rw [if_neg ha] at hs ⊢
        exact absurd hs ha
    · exact ih d hd hs

lemma collapse_noTwoSpaces (l : List Char) : noTwoSpaces (collapse l) := by
  induction l using collapse.induct with
  | case1 => simp [collapse, noTwoSpaces]
  | case2 c h => simp [collapse, h, noTwoSpaces]
  | case3 c h => simp [collapse, h, noTwoSpaces]
  | case4 a b t h ih =>
    rw [noTwoSpaces, show collapse (a :: b :: t) = collapse (b :: t) from by
      simp [collapse, h]]
    exact ih
  | case5 a b t h ih =>
    rw [noTwoSpaces, show collapse (a :: b :: t) =
        (if isSpace a then ' ' else a) :: collapse (b :: t) from by
      simp [collapse, h]]
    refine List.chain'_cons'.mpr ⟨?_, ih⟩
    intro y hy
    obtain ⟨u, hu⟩ := collapse_cons b t
    rw [hu] at hy
    simp only [List.head?_cons, Option.mem_def, Option.some.injEq] at hy
    subst hy
    rintro ⟨h1, h2⟩
    apply h
    rw [Bool.and_eq_true_iff]
    constructor
    · by_cases ha : isSpace a = true
      · exact ha
      · rw [if_neg ha] at h1
        exact h1
    · by_cases hb : isSpace b = true
      · exact hb
      · rw [if_neg hb] at h2
        exact h2

lemma collapse_fix : ∀ l : List Char, spacesBlank l → noTwoSpaces l →
    collapse l = l := by
  intro l
  induction l using collapse.induct with
  | case1 => intro _ _; rfl
  | case2 c h =>
    intro h1 _
    have := h1 c (by simp) h
    simp [collapse, h, this]
  | case3 c h =>
    intro _ _
    simp [collapse, h]
  | case4 a b t h ih =>
    intro _ h2
    exfalso
    obtain ⟨ha, hb⟩ := Bool.and_eq_true_iff.mp h
    exact (List.chain'_cons.mp h2).1 ⟨ha, hb⟩
  | case5 a b t h ih =>
    intro h1 h2
    have hh : (if isSpace a then ' ' else a) = a := by
      by_cases ha : isSpace a = true
      · rw [if_pos ha]
        exact (h1 a (by simp) ha).symm
      · rw [if_neg ha]
    have ht1 : spacesBlank (b :: t) := fun c hc hs =>
      h1 c (List.mem_cons_of_mem a hc) hs
    have ht2 : noTwoSpaces (b :: t) := (List.chain'_cons.mp h2).2
    rw [show collapse (a :: b :: t) =
        (if isSpace a then ' ' else a) :: collapse (b :: t) from by
      simp [collapse, h], hh, ih ht1 ht2]

lemma noTwoSpaces_dropWhile (p : Char → Bool) (l : List Char)
    (h : noTwoSpaces l) : noTwoSpaces (l.dropWhile p) := by
  induction l with
  | nil => simpa using h
  | cons a t ih =>
    by_cases ha : p a = true
    · rw [List.dropWhile_cons, if_pos ha]
      exact ih (List.Chain'.tail h)
    · rw [List.dropWhile_cons, if_neg ha]
      exact h

lemma noTwoSpaces_reverse (l : List Char) (h : noTwoSpaces l) :
    noTwoSpaces l.reverse := by
  rw [noTwoSpaces, List.chain'_reverse]
  exact List.Chain'.imp (fun a b hab => fun ⟨x, y⟩ => hab ⟨y, x⟩) h

lemma head_dropWhile_not (p : Char → Bool) : ∀ (l : List Char) (c : Char),
    (l.dropWhile p).head? = some c → p c = false := by
  intro l
  induction l with
  | nil => intro c hc; simp at hc
  | cons a t ih =>
    intro c hc
    by_cases ha : p a = true
    · rw [List.dropWhile_cons, if_pos ha] at hc
      exact ih c hc
    · rw [List.dropWhile_cons, if_neg ha] at hc
      simp only [List.head?_cons, Option.some.injEq] at hc
      subst hc
      simpa using ha

lemma dropWhile_eq_self_of_head (p : Char → Bool) (l : List Char)
    (h : ∀ c, l.head? = some c → p c = false) : l.dropWhile p = l := by
  cases l with
  | nil => rfl
  | cons a t =>
    have hpa := h a rfl
    simp [List.dropWhile_cons, hpa]

lemma dropWhile_suffix' (p : Char → Bool) (l : List Char) : l.dropWhile p <:+ l :=
  ⟨l.takeWhile p, List.takeWhile_append_dropWhile p l⟩

lemma revDrop_isPre (p : Char → Bool) (u : List Char) :
    (List.dropWhile p u.reverse).reverse <+: u := by
  obtain ⟨pre, hpre⟩ := dropWhile_suffix' p u.reverse
  exact ⟨pre.reverse, by rw [← List.reverse_append, hpre, List.reverse_reverse]⟩

lemma head?_of_isPre {l m : List Char} (h : l <+: m) (c : Char)
    (hc : l.head? = some c) : m.head? = some c := by
  obtain ⟨r, rfl⟩ := h
  cases l with
  | nil => simp at hc
  | cons a t => simpa using hc

lemma strip_head (l : List Char) (c : Char) (h : (strip l).head? = some c) :
    isSpace c = false := by
  have hpre : strip l <+: l.dropWhile isSpace :=
    revDrop_isPre isSpace (l.dropWhile isSpace)
  exact head_dropWhile_not isSpace l c (head?_of_isPre hpre c h)

lemma strip_reverse_head (l : List Char) (c : Char)
    (h : (strip l).reverse.head? = some c) : isSpace c = false := by
  rw [strip, List.reverse_reverse] at h
  exact head_dropWhile_not isSpace _ c h

lemma strip_eq_self (l : List Char)
    (hh : ∀ c, l.head? = some c → isSpace c = false)
    (hr : ∀ c, l.reverse.head? = some c → isSpace c = false) : strip l = l := by
  rw [strip, dropWhile_eq_self_of_head isSpace l hh,
    dropWhile_eq_self_of_head isSpace l.reverse hr, List.reverse_reverse]

lemma strip_strip (l : List Char) : strip (strip l) = strip l :=
  strip_eq_self (strip l) (strip_head l) (strip_reverse_head l)

lemma mem_of_mem_dropWhile (p : Char → Bool) (l : List Char) (c : Char)
    (h : c ∈ l.dropWhile p) : c ∈ l :=
  (dropWhile_suffix' p l).sublist.subset h

lemma mem_strip (l : List Char) (c : Char) (h : c ∈ strip l) : c ∈ l := by
  rw [strip, List.mem_reverse] at h
  have h2 := mem_of_mem_dropWhile isSpace _ c h
  rw [List.mem_reverse] at h2
  exact mem_of_mem_dropWhile isSpace _ c h2

lemma clean_no_nl (s : List Char) : '\n' ∉ clean_text s := by
  intro h
  rw [clean_text] at h
  have h2 := mem_strip _ _ h
  have h3 := collapse_spacesBlank (removeCitations (removeHeaders s)) '\n' h2 (by decide)
  exact absurd h3 (by decide)

lemma clean_spacesBlank (s : List Char) : spacesBlank (clean_text s) :=
  fun c hc hs => collapse_spacesBlank _ c (mem_strip _ c hc) hs

lemma clean_noTwoSpaces (s : List Char) : noTwoSpaces (clean_text s) := by
  rw [clean_text, strip]
  exact noTwoSpaces_reverse _ (noTwoSpaces_dropWhile _ _
    (noTwoSpaces_reverse _ (noTwoSpaces_dropWhile _ _ (collapse_noTwoSpaces _))))

/-! ### Claim theorems: the Text Cleaner -/

/-- C8 counterexample: `clean_text` is not idempotent.  On `"[[1]2]"` the
citation-marker substitution deletes `[1]` and thereby exposes the new
marker `[2]`, which only a second application removes, so
`clean_text (clean_text s) ≠ clean_text s`. -/
theorem C8_counterexample :
    clean_text (clean_text "[[1]2]".data) ≠ clean_text "[[1]2]".data := by
  decide

/-- C8 amended: `clean_text` is idempotent on every string whose cleaned
form contains no remaining citation marker `\[\d+\]` (the substitution can
expose a new marker, as in `"[[1]2]"`); under that proviso the header pass
is a no-op because the cleaned text has no newline, and collapsing and
stripping an already collapsed and stripped text changes nothing. -/
theorem C8_amended (s : List Char)
    (hnc : removeCitations (clean_text s) = clean_text s) :
    clean_text (clean_text s) = clean_text s := by
  have h1 : removeHeaders (clean_text s) = clean_text s := by
    rw [removeHeaders, rhAux_no_nl (clean_text s) [] (clean_no_nl s)]
    rfl
  conv_lhs => rw [clean_text]
  rw [h1, hnc,
    collapse_fix (clean_text s) (clean_spacesBlank s) (clean_noTwoSpaces s)]
  exact strip_strip (collapse (removeCitations (removeHeaders s)))

/-- C8 witness: the amended idempotence applied to the concrete string
`"a  b"`, whose cleaned form `"a b"` has no citation marker. -/
theorem C8_amended_witness :
    clean_text (clean_text "a  b".data) = clean_text "a  b".data :=
  C8_amended "a  b".data (by decide)
